import Mathlib

/-!
Verification of the `rand` crate core (`src/librand/lib.rs`): the `Rng`
trait's derived operations (`next_u64`, `fill_bytes`, `gen_range`,
`gen_weighted_bool`, `gen_ascii_str`, `choose`, `shuffle`, `sample`) and the
`XorShiftRng` generator with its seeding rules.

Machine integers are embedded as `Nat` with explicit `% 2 ^ 32` where u32
wrap-around matters.  A generator is embedded as an infinite stream of
32-bit words together with a cursor: within one instance, output is a
strict deterministic function of prior state and draw sequence, so every
deterministic `Rng` is some choice of stream.  Failure (`assert!` /
`fail!` / `unwrap` panics) is embedded as `Option`/`none`.
-/

set_option maxRecDepth 4000

/-- A deterministic random generator: an infinite stream of (untruncated)
words `seq` and a cursor `pos`.  `next_u32` reads the word at the cursor,
truncated to 32 bits, and advances the cursor. -/
structure RNG where
  seq : Nat → Nat
  pos : Nat

/-- `Rng::next_u32`: the primitive draw of the generator model. -/
def RNG.next_u32 (g : RNG) : Nat × RNG :=
  (g.seq g.pos % 2 ^ 32, ⟨g.seq, g.pos + 1⟩)

/-- The generator advanced by `n` primitive draws. -/
def RNG.advance (g : RNG) (n : Nat) : RNG :=
  ⟨g.seq, g.pos + n⟩

namespace Rng

/-- `Rng::next_u64` default implementation:
`(self.next_u32() as u64 << 32) | (self.next_u32() as u64)` —
first draw is the high half, second the low half. -/
def next_u64 (g : RNG) : Nat × RNG :=
  let a := g.next_u32
  let b := a.2.next_u32
  ((a.1 <<< 32) ||| b.1, b.2)

end Rng

/-- `XorShiftRng` state: four 32-bit words `x, y, z, w`. -/
structure XorShiftRng where
  x : Nat
  y : Nat
  z : Nat
  w : Nat
deriving DecidableEq, Repr

namespace XorShiftRng

/-- All four state words fit in 32 bits (the `u32` typing of the fields). -/
def bounded (s : XorShiftRng) : Prop :=
  s.x < 2 ^ 32 ∧ s.y < 2 ^ 32 ∧ s.z < 2 ^ 32 ∧ s.w < 2 ^ 32

instance (s : XorShiftRng) : Decidable s.bounded := by
  unfold bounded; infer_instance

/-- The all-zero state predicate. -/
def allZero (s : XorShiftRng) : Prop :=
  s.x = 0 ∧ s.y = 0 ∧ s.z = 0 ∧ s.w = 0

instance (s : XorShiftRng) : Decidable s.allZero := by
  unfold allZero; infer_instance

/-- `<Rng for XorShiftRng>::next_u32`:
`t = x ^ (x << 11)` (u32 shift truncates), the state shifts
`x←y, y←z, z←w`, the new `w` is `w ^ (w >> 19) ^ (t ^ (t >> 8))`, and the
new `w` is returned. -/
def next_u32 (self : XorShiftRng) : Nat × XorShiftRng :=
  let x := self.x
  let t := x ^^^ ((x <<< 11) % 2 ^ 32)
  let w := self.w
  let w2 := (w ^^^ (w >>> 19)) ^^^ (t ^^^ (t >>> 8))
  (w2, { x := self.y, y := self.z, z := self.w, w := w2 })

/-- `<SeedableRng for XorShiftRng>::from_seed`: asserts that the four seed
words are not all zero (`none` embeds the `assert!` failure), then sets
`x, y, z, w` to `seed[0..4]`. -/
def from_seed (s0 s1 s2 s3 : Nat) : Option XorShiftRng :=
  if s0 = 0 ∧ s1 = 0 ∧ s2 = 0 ∧ s3 = 0 then none
  else some { x := s0, y := s1, z := s2, w := s3 }

/-- `<SeedableRng for XorShiftRng>::reseed`: same all-zero assertion, then
overwrites the four state words with the seed words. -/
def reseed (_self : XorShiftRng) (s0 s1 s2 s3 : Nat) : Option XorShiftRng :=
  if s0 = 0 ∧ s1 = 0 ∧ s2 = 0 ∧ s3 = 0 then none
  else some { x := s0, y := s1, z := s2, w := s3 }

/-- The state after `n` consecutive `next_u32` draws. -/
def iterate (s : XorShiftRng) : Nat → XorShiftRng
  | 0 => s
  | n + 1 => (iterate s n).next_u32.2

end XorShiftRng

/-- Modelled from the spec: `distributions::Range::ind_sample` for unsigned
integers is not under `src/` (only its caller `Rng::gen_range` is).  Per the
spec's RangeSampler design, the half-open span is the unsigned magnitude
`high - low`, and a rejection threshold discards draws landing in the
"overflow tail" of the generator's native 32-bit output range, redrawing
until acceptance; the accepted draw is reduced into the span and offset by
`low`.  The geometric retry loop is totalised by a fuel bound, falling back
to plain reduction, which never leaves `[low, high)`. -/
def rangeSampleGo (low range zone : Nat) : Nat → RNG → Nat × RNG
  | 0, g =>
    let v := g.next_u32
    (low + v.1 % range, v.2)
  | fuel + 1, g =>
    let v := g.next_u32
    if v.1 < zone then (low + v.1 % range, v.2)
    else rangeSampleGo low range zone fuel v.2

/-- Modelled from the spec: the one-shot RangeSampler draw performed by
`Rng::gen_range` once the `low < high` precondition has been checked. -/
def indSample (low high : Nat) (g : RNG) : Nat × RNG :=
  rangeSampleGo low (high - low) (2 ^ 32 - 2 ^ 32 % (high - low)) 64 g

namespace Rng

/-- `Rng::gen_range`: `assert!(low < high)` (`none` embeds the assertion
failure, the InvalidArgument error), then builds a one-shot range sampler
and draws once. -/
def gen_range (low high : Nat) (g : RNG) : Option (Nat × RNG) :=
  if low < high then some (indSample low high g) else none

/-- `Rng::gen_weighted_bool`: `n == 0 || self.gen_range(0, n) == 0` —
the `||` short-circuits, so `n = 0` yields `true` without drawing. -/
def gen_weighted_bool (g : RNG) (n : Nat) : Option (Bool × RNG) :=
  if n = 0 then some (true, g)
  else (gen_range 0 n g).map fun p => (p.1 == 0, p.2)

/-- `Rng::choose`: `None` for an empty slice, otherwise the element at a
uniform index in `[0, len)`.  The inner `match` arm for a failed
`gen_range` is dead code: `len > 0` there. -/
def choose (g : RNG) (values : List α) : Option α × RNG :=
  if values.isEmpty then (none, g)
  else
    match gen_range 0 values.length g with
    | some (i, g2) => (values[i]?, g2)
    | none => (none, g)

end Rng

/-- The 62-symbol alphabet `GEN_ASCII_STR_CHARSET` of `Rng::gen_ascii_str`:
`A-Z`, `a-z`, `0-9`. -/
def GEN_ASCII_STR_CHARSET : List Char :=
  "ABCDEFGHIJKLMNOPQRSTUVWXYZabcdefghijklmnopqrstuvwxyz0123456789".toList

/-- `values.swap(i, j)` on a slice embedded as a list: exchange the
elements at positions `i` and `j`.  The out-of-bounds arm embeds the
(unreachable in `shuffle`) bounds panic as the identity. -/
def listSwap (l : List α) (i j : Nat) : List α :=
  match l[i]?, l[j]? with
  | some a, some b => (l.set i b).set j a
  | _, _ => l

namespace Rng

/-- `Rng::gen_ascii_str`: `len` successive picks from the 62-symbol
alphabet via `choose`, each `.unwrap()`ed (`none` embeds the unwrap panic,
which is dead code since the alphabet is non-empty). -/
def gen_ascii_str (g : RNG) : Nat → Option (List Char × RNG)
  | 0 => some ([], g)
  | n + 1 =>
    match choose g GEN_ASCII_STR_CHARSET with
    | (some c, g2) => (gen_ascii_str g2 n).map fun p => (c :: p.1, p.2)
    | (none, _) => none

/-- The `while i >= 2` loop of `Rng::shuffle`, with `i` the loop variable
before the in-loop decrement: for `i ≥ 2` it decrements `i` and swaps
element `i` with the element at index `gen_range(0, i + 1)` ∈ `[0, i]`.
The `none` arm embeds the (dead, `i + 2 > 0`) `gen_range` failure. -/
def shuffleGo : Nat → List α → RNG → List α × RNG
  | 0, vs, g => (vs, g)
  | 1, vs, g => (vs, g)
  | i + 2, vs, g =>
    match gen_range 0 (i + 2) g with
    | some (j, g2) => shuffleGo (i + 1) (listSwap vs (i + 1) j) g2
    | none => (vs, g)

/-- `Rng::shuffle`: Fisher–Yates on a mutable slice, embedded as a
function from the input list to the output list. -/
def shuffle (g : RNG) (values : List α) : List α × RNG :=
  shuffleGo values.length values g

/-- The `for (i, elem) in iter.enumerate()` loop of `Rng::sample`:
`reservoir` holds the sample built so far, `i` the 0-based position of the
head of `rest`.  The first `n` elements are pushed; afterwards
`k = gen_range(0, i + 1)` overwrites slot `k` when `k < reservoir.len()`.
The `none` arm embeds the (dead, `i + 1 > 0`) `gen_range` failure. -/
def sampleGo (n : Nat) : List α → Nat → List α → RNG → Option (List α × RNG)
  | [], _, reservoir, g => some (reservoir, g)
  | e :: rest, i, reservoir, g =>
    if i < n then sampleGo n rest (i + 1) (reservoir ++ [e]) g
    else
      match gen_range 0 (i + 1) g with
      | some (k, g2) =>
        sampleGo n rest (i + 1)
          (if k < reservoir.length then reservoir.set k e else reservoir) g2
      | none => none

/-- `Rng::sample`: reservoir-sample up to `n` elements from the sequence. -/
def sample (g : RNG) (iter : List α) (n : Nat) : Option (List α × RNG) :=
  sampleGo n iter 0 [] g

end Rng

/-- The byte loop of the default `Rng::fill_bytes`, generic in the word
source `f` (all the source uses of the generator go through `next_u64`):
state `(count, num)` holds the number of undrained bytes of the current
word and the word shifted past the drained bytes; when `count` is `0` a
fresh word is drawn and `count` reset to 8; each output byte is
`num & 0xff`, after which `num` shifts right 8 and `count` decrements. -/
def fillBytesGo {σ : Type u} (f : σ → Nat × σ) :
    List Nat → Nat → Nat → σ → List Nat × σ
  | [], _, _, s => ([], s)
  | _ :: rest, count, num, s =>
    if count = 0 then
      let p := f s
      let out := fillBytesGo f rest (8 - 1) (p.1 >>> 8) p.2
      ((p.1 &&& 0xff) :: out.1, out.2)
    else
      let out := fillBytesGo f rest (count - 1) (num >>> 8) s
      ((num &&& 0xff) :: out.1, out.2)

namespace Rng

/-- Default `Rng::fill_bytes`: iterate the byte loop over `dest` starting
with `count = 0`, `num = 0`.  Generic in the `next_u64` word source `f`
and its state type, covering every generator. -/
def fill_bytes {σ : Type u} (f : σ → Nat × σ) (dest : List Nat) (s : σ) :
    List Nat × σ :=
  fillBytesGo f dest 0 0 s

end Rng

/-- The `k`-th (0-based) 64-bit word drawn by repeated calls of the word
source `f` from state `s`. -/
def wordAt {σ : Type u} (f : σ → Nat × σ) (s : σ) : Nat → Nat
  | 0 => (f s).1
  | k + 1 => wordAt f (f s).2 k

/-- The state of the word source `f` after `k` draws from state `s`. -/
def stateAfter {σ : Type u} (f : σ → Nat × σ) (s : σ) : Nat → σ
  | 0 => s
  | k + 1 => stateAfter f (f s).2 k

/-! ### Helper lemmas: 32-bit arithmetic -/

theorem xor_lt_u32 {a b : Nat} (ha : a < 2 ^ 32) (hb : b < 2 ^ 32) :
    a ^^^ b < 2 ^ 32 :=
  Nat.xor_lt_two_pow ha hb

theorem shiftRight_lt_u32 {a : Nat} (k : Nat) (ha : a < 2 ^ 32) :
    a >>> k < 2 ^ 32 := by
  rw [Nat.shiftRight_eq_div_pow]
  exact Nat.lt_of_le_of_lt (Nat.div_le_self _ _) ha

namespace XorShiftRng

theorem next_u32_bounded {s : XorShiftRng} (h : s.bounded) :
    s.next_u32.1 < 2 ^ 32 ∧ s.next_u32.2.bounded := by
  obtain ⟨hx, hy, hz, hw⟩ := h
  have ht : s.x ^^^ ((s.x <<< 11) % 2 ^ 32) < 2 ^ 32 :=
    xor_lt_u32 hx (Nat.mod_lt _ (by norm_num))
  have hw2 : s.next_u32.1 < 2 ^ 32 :=
    xor_lt_u32 (xor_lt_u32 hw (shiftRight_lt_u32 19 hw))
      (xor_lt_u32 ht (shiftRight_lt_u32 8 ht))
  exact ⟨hw2, hy, hz, hw, hw2⟩

/-- If `x < 2^32` is non-zero then `t = x ^ (x << 11)` (u32) is non-zero:
`t = 0` would give `x * 2047 ≡ 0 (mod 2^32)`, and `2047` is odd. -/
theorem t_ne_zero {x : Nat} (hx : x ≠ 0) (hlt : x < 2 ^ 32) :
    x ^^^ ((x <<< 11) % 2 ^ 32) ≠ 0 := by
  intro h0
  have heq : x = (x <<< 11) % 2 ^ 32 := Nat.xor_eq_zero.mp h0
  rw [Nat.shiftLeft_eq] at heq
  norm_num at heq
  have hmodeq : x ≡ x * 2048 [MOD 2 ^ 32] := by
    unfold Nat.ModEq
    rw [Nat.mod_eq_of_lt hlt]
    exact heq
  have hdvd : 2 ^ 32 ∣ x * 2048 - x :=
    (Nat.modEq_iff_dvd' (Nat.le_mul_of_pos_right x (by norm_num))).mp hmodeq
  have hsub : x * 2048 - x = x * 2047 := by omega
  rw [hsub] at hdvd
  have hco : Nat.Coprime (2 ^ 32) 2047 :=
    Nat.Coprime.pow_left 32 (Nat.coprime_two_left.mpr ⟨1023, by norm_num⟩)
  have : x = 0 :=
    Nat.eq_zero_of_dvd_of_lt (hco.dvd_of_dvd_mul_right hdvd) hlt
  exact hx this

/-- One draw from a bounded, not-all-zero state leaves the state
not-all-zero. -/
theorem next_u32_not_allZero {s : XorShiftRng} (hb : s.bounded)
    (h : ¬ s.allZero) : ¬ s.next_u32.2.allZero := by
  rintro ⟨hy, hz, hw, hw2⟩
  simp only [next_u32] at hy hz hw hw2
  have hx : s.x ≠ 0 := by
    intro hx0
    exact h ⟨hx0, hy, hz, hw⟩
  rw [hw] at hw2
  simp only [Nat.zero_shiftRight, Nat.zero_xor] at hw2
  have ht : s.x ^^^ ((s.x <<< 11) % 2 ^ 32) = 0 := by
    set t := s.x ^^^ ((s.x <<< 11) % 2 ^ 32) with hts
    have heq : t = t >>> 8 := Nat.xor_eq_zero.mp hw2
    rcases Nat.eq_zero_or_pos t with h0 | hpos
    · exact h0
    · exfalso
      rw [Nat.shiftRight_eq_div_pow] at heq
      have : t / 2 ^ 8 < t := Nat.div_lt_self hpos (by norm_num)
      omega
  exact t_ne_zero hx hb.1 ht

theorem iterate_bounded {s : XorShiftRng} (hb : s.bounded) :
    ∀ n, (s.iterate n).bounded := by
  intro n
  induction n with
  | zero => exact hb
  | succ n ih => exact (next_u32_bounded ih).2

theorem iterate_not_allZero {s : XorShiftRng} (hb : s.bounded)
    (h : ¬ s.allZero) : ∀ n, ¬ (s.iterate n).allZero := by
  intro n
  induction n with
  | zero => exact h
  | succ n ih => exact next_u32_not_allZero (iterate_bounded hb n) ih

theorem from_seed_not_allZero {s0 s1 s2 s3 : Nat} {g : XorShiftRng}
    (h : from_seed s0 s1 s2 s3 = some g) : ¬ g.allZero := by
  unfold from_seed at h
  split at h
  · exact absurd h (by simp)
  · rename_i hne
    cases h
    exact hne

end XorShiftRng

namespace XorShiftRng

theorem from_seed_some_eq {s0 s1 s2 s3 : Nat} {g : XorShiftRng}
    (h : from_seed s0 s1 s2 s3 = some g) :
    g = { x := s0, y := s1, z := s2, w := s3 } := by
  unfold from_seed at h
  split at h
  · exact absurd h (by simp)
  · cases h; rfl

theorem reseed_eq_from_seed (old : XorShiftRng) (s0 s1 s2 s3 : Nat) :
    old.reseed s0 s1 s2 s3 = from_seed s0 s1 s2 s3 := rfl

end XorShiftRng

/-- C2: one call to `XorShiftRng::next_u32` computes
`t = x ^ (x<<11)`, shifts the state `x←y, y←z, z←w`, sets the new `w` to
`w ^ (w>>19) ^ (t ^ (t>>8))` (32-bit operations, so the result is again a
32-bit word), and returns the new `w`. -/
theorem claim_C2_xorshift_step (s : XorShiftRng) (h : s.bounded) :
    s.next_u32.2 = { x := s.y, y := s.z, z := s.w, w := s.next_u32.1 } ∧
    s.next_u32.1 =
      (s.w ^^^ (s.w >>> 19)) ^^^
        ((s.x ^^^ ((s.x <<< 11) % 2 ^ 32)) ^^^
          ((s.x ^^^ ((s.x <<< 11) % 2 ^ 32)) >>> 8)) ∧
    s.next_u32.1 < 2 ^ 32 ∧ s.next_u32.2.bounded := by
  have hb := XorShiftRng.next_u32_bounded h
  exact ⟨rfl, rfl, hb.1, hb.2⟩

theorem claim_C2_xorshift_step_witness :
    (⟨1, 2, 3, 4⟩ : XorShiftRng).bounded ∧
    ((⟨1, 2, 3, 4⟩ : XorShiftRng).next_u32.2 =
        { x := 2, y := 3, z := 4, w := (⟨1, 2, 3, 4⟩ : XorShiftRng).next_u32.1 } ∧
      (⟨1, 2, 3, 4⟩ : XorShiftRng).next_u32.1 =
        (4 ^^^ (4 >>> 19)) ^^^
          ((1 ^^^ ((1 <<< 11) % 2 ^ 32)) ^^^
            ((1 ^^^ ((1 <<< 11) % 2 ^ 32)) >>> 8)) ∧
      (⟨1, 2, 3, 4⟩ : XorShiftRng).next_u32.1 < 2 ^ 32 ∧
      (⟨1, 2, 3, 4⟩ : XorShiftRng).next_u32.2.bounded) :=
  ⟨by decide, claim_C2_xorshift_step ⟨1, 2, 3, 4⟩ (by decide)⟩

/-- C3: the all-zero state is a fixed point of the `XorShiftRng`
transition (returning 0), every draw from a bounded not-all-zero state
yields a not-all-zero state, and a generator built by `from_seed` or
`reseed` from an accepted (not-all-zero) 32-bit seed stays not-all-zero
across every sequence of draws. -/
theorem claim_C3_never_all_zero :
    XorShiftRng.next_u32 ⟨0, 0, 0, 0⟩ = (0, ⟨0, 0, 0, 0⟩) ∧
    (∀ s : XorShiftRng, s.bounded → ¬ s.allZero → ¬ s.next_u32.2.allZero) ∧
    (∀ (s0 s1 s2 s3 : Nat) (g : XorShiftRng),
      s0 < 2 ^ 32 → s1 < 2 ^ 32 → s2 < 2 ^ 32 → s3 < 2 ^ 32 →
      XorShiftRng.from_seed s0 s1 s2 s3 = some g →
      ∀ n, ¬ (g.iterate n).allZero) ∧
    (∀ (old : XorShiftRng) (s0 s1 s2 s3 : Nat) (g : XorShiftRng),
      s0 < 2 ^ 32 → s1 < 2 ^ 32 → s2 < 2 ^ 32 → s3 < 2 ^ 32 →
      old.reseed s0 s1 s2 s3 = some g →
      ∀ n, ¬ (g.iterate n).allZero) := by
  have hseed : ∀ (s0 s1 s2 s3 : Nat) (g : XorShiftRng),
      s0 < 2 ^ 32 → s1 < 2 ^ 32 → s2 < 2 ^ 32 → s3 < 2 ^ 32 →
      XorShiftRng.from_seed s0 s1 s2 s3 = some g →
      ∀ n, ¬ (g.iterate n).allZero := by
    intro s0 s1 s2 s3 g h0 h1 h2 h3 hs n
    have hz := XorShiftRng.from_seed_not_allZero hs
    have hg := XorShiftRng.from_seed_some_eq hs
    subst hg
    exact XorShiftRng.iterate_not_allZero ⟨h0, h1, h2, h3⟩ hz n
  refine ⟨by decide, fun s hb hz => XorShiftRng.next_u32_not_allZero hb hz,
    hseed, ?_⟩
  intro old s0 s1 s2 s3 g h0 h1 h2 h3 hs n
  rw [XorShiftRng.reseed_eq_from_seed] at hs
  exact hseed s0 s1 s2 s3 g h0 h1 h2 h3 hs n

theorem claim_C3_never_all_zero_witness :
    ¬ (XorShiftRng.iterate ⟨1, 2, 3, 4⟩ 5).allZero :=
  claim_C3_never_all_zero.2.2.1 1 2 3 4 ⟨1, 2, 3, 4⟩
    (by decide) (by decide) (by decide) (by decide) (by decide) 5

/-- C5: `XorShiftRng::from_seed` and `reseed` fail (the `assert!`,
InvalidSeed) exactly when all four seed words are zero; otherwise they
succeed and set the state `(x, y, z, w)` to the four seed words. -/
theorem claim_C5_seed_validation (s0 s1 s2 s3 : Nat) (old : XorShiftRng) :
    (XorShiftRng.from_seed s0 s1 s2 s3 = none ↔
      s0 = 0 ∧ s1 = 0 ∧ s2 = 0 ∧ s3 = 0) ∧
    (old.reseed s0 s1 s2 s3 = none ↔
      s0 = 0 ∧ s1 = 0 ∧ s2 = 0 ∧ s3 = 0) ∧
    (¬ (s0 = 0 ∧ s1 = 0 ∧ s2 = 0 ∧ s3 = 0) →
      XorShiftRng.from_seed s0 s1 s2 s3 =
          some { x := s0, y := s1, z := s2, w := s3 } ∧
        old.reseed s0 s1 s2 s3 =
          some { x := s0, y := s1, z := s2, w := s3 }) := by
  unfold XorShiftRng.reseed XorShiftRng.from_seed
  refine ⟨?_, ?_, ?_⟩ <;> split <;> simp_all

theorem claim_C5_seed_validation_witness :
    XorShiftRng.from_seed 1 2 3 4 = some { x := 1, y := 2, z := 3, w := 4 } ∧
    XorShiftRng.reseed ⟨5, 6, 7, 8⟩ 1 2 3 4 =
      some { x := 1, y := 2, z := 3, w := 4 } :=
  (claim_C5_seed_validation 1 2 3 4 ⟨5, 6, 7, 8⟩).2.2 (by decide)

/-! ### Helper lemmas: the range sampler and `gen_range` -/

theorem rangeSampleGo_mem (low range zone : Nat) (hr : 0 < range) :
    ∀ (fuel : Nat) (g : RNG),
      low ≤ (rangeSampleGo low range zone fuel g).1 ∧
      (rangeSampleGo low range zone fuel g).1 < low + range := by
  intro fuel
  induction fuel with
  | zero =>
    intro g
    exact ⟨Nat.le_add_right _ _,
      Nat.add_lt_add_left (Nat.mod_lt _ hr) low⟩
  | succ fuel ih =>
    intro g
    simp only [rangeSampleGo]
    split
    · exact ⟨Nat.le_add_right _ _,
        Nat.add_lt_add_left (Nat.mod_lt _ hr) low⟩
    · exact ih _

theorem indSample_mem {low high : Nat} (h : low < high) (g : RNG) :
    low ≤ (indSample low high g).1 ∧ (indSample low high g).1 < high := by
  have := rangeSampleGo_mem low (high - low)
    (2 ^ 32 - 2 ^ 32 % (high - low)) (by omega) 64 g
  unfold indSample
  omega

namespace Rng

theorem gen_range_eq {low high : Nat} (h : low < high) (g : RNG) :
    gen_range low high g = some (indSample low high g) := by
  unfold gen_range
  exact if_pos h

theorem gen_range_none_iff (low high : Nat) (g : RNG) :
    gen_range low high g = none ↔ high ≤ low := by
  unfold gen_range
  split <;> rename_i h <;> simp <;> omega

/-- `choose` on a non-empty list returns the element at the sampled index
`indSample 0 len`, which is in bounds. -/
theorem choose_spec {α : Type u} (g : RNG) (vs : List α) (h : vs ≠ []) :
    ∃ (i : Nat) (hi : i < vs.length) (g2 : RNG),
      choose g vs = (some (vs.get ⟨i, hi⟩), g2) := by
  have hlen : 0 < vs.length := List.length_pos.mpr h
  have hmem := indSample_mem hlen g
  refine ⟨(indSample 0 vs.length g).1, by omega, (indSample 0 vs.length g).2, ?_⟩
  unfold choose
  rw [if_neg (by simpa [List.isEmpty_iff] using h), gen_range_eq hlen g]
  simp [List.getElem?_eq_getElem (by omega : (indSample 0 vs.length g).1 < vs.length)]

end Rng

/-- C4: `gen_range(low, high)` fails (InvalidArgument) iff `low ≥ high`;
otherwise it returns a value `v` with `low ≤ v < high`. -/
theorem claim_C4_gen_range (low high : Nat) (g : RNG) :
    (Rng.gen_range low high g = none ↔ high ≤ low) ∧
    (∀ (v : Nat) (g2 : RNG), Rng.gen_range low high g = some (v, g2) →
      low ≤ v ∧ v < high) := by
  refine ⟨Rng.gen_range_none_iff low high g, ?_⟩
  intro v g2 hsome
  have hlt : low < high := by
    by_contra hge
    rw [(Rng.gen_range_none_iff low high g).mpr (by omega)] at hsome
    cases hsome
  rw [Rng.gen_range_eq hlt g] at hsome
  have hmem := indSample_mem hlt g
  have h2 : indSample low high g = (v, g2) := Option.some.inj hsome
  have hv : v = (indSample low high g).1 := by rw [h2]
  rw [hv]
  exact hmem

/-- A concrete generator used to instantiate the claims: the stream of
successive naturals. -/
def gcon : RNG := ⟨fun i => i, 0⟩

theorem claim_C4_gen_range_witness :
    10 ≤ (indSample 10 20 gcon).1 ∧ (indSample 10 20 gcon).1 < 20 :=
  (claim_C4_gen_range 10 20 gcon).2 (indSample 10 20 gcon).1
    (indSample 10 20 gcon).2 (by simp [Rng.gen_range_eq (by omega : (10:Nat) < 20)])

/-- C6: `gen_weighted_bool(0)` is `true` without drawing;
for `n ≥ 1` the result is `true` iff a uniform draw in `[0, n)` equals 0;
`gen_weighted_bool(1)` is always `true`. -/
theorem claim_C6_gen_weighted_bool (g : RNG) (n : Nat) :
    Rng.gen_weighted_bool g 0 = some (true, g) ∧
    (1 ≤ n → ∃ (v : Nat) (g2 : RNG),
      Rng.gen_range 0 n g = some (v, g2) ∧ v < n ∧
      Rng.gen_weighted_bool g n = some (v == 0, g2)) ∧
    (∃ g2 : RNG, Rng.gen_weighted_bool g 1 = some (true, g2)) := by
  have hcore : ∀ m : Nat, 1 ≤ m → ∃ (v : Nat) (g2 : RNG),
      Rng.gen_range 0 m g = some (v, g2) ∧ v < m ∧
      Rng.gen_weighted_bool g m = some (v == 0, g2) := by
    intro m hm
    have hmem := indSample_mem (show 0 < m by omega) g
    refine ⟨(indSample 0 m g).1, (indSample 0 m g).2,
      by simp [Rng.gen_range_eq (show 0 < m by omega) g], by omega, ?_⟩
    unfold Rng.gen_weighted_bool
    rw [if_neg (by omega), Rng.gen_range_eq (show 0 < m by omega) g]
    rfl
  refine ⟨rfl, hcore n, ?_⟩
  obtain ⟨v, g2, _, hv, hres⟩ := hcore 1 (by omega)
  refine ⟨g2, ?_⟩
  have hv0 : v = 0 := by omega
  rw [hres, hv0]
  rfl

theorem claim_C6_gen_weighted_bool_witness :
    ∃ (v : Nat) (g2 : RNG),
      Rng.gen_range 0 3 gcon = some (v, g2) ∧ v < 3 ∧
      Rng.gen_weighted_bool gcon 3 = some (v == 0, g2) :=
  (claim_C6_gen_weighted_bool gcon 3).2.1 (by omega)

/-- C9: `choose` returns `None` iff the input is empty; on a length-1
input it returns that single element; any returned element is present in
the input. -/
theorem claim_C9_choose {α : Type u} (g : RNG) (vs : List α) :
    ((Rng.choose g vs).1 = none ↔ vs = []) ∧
    (∀ v : α, (Rng.choose g [v]).1 = some v) ∧
    (∀ a : α, (Rng.choose g vs).1 = some a → a ∈ vs) := by
  have hsingle : ∀ v : α, (Rng.choose g [v]).1 = some v := by
    intro v
    obtain ⟨i, hi, g2, hc⟩ := Rng.choose_spec g [v] (by simp)
    have hi0 : i = 0 := by simpa using hi
    subst hi0
    rw [hc]
    rfl
  by_cases hvs : vs = []
  · subst hvs
    refine ⟨by simp [Rng.choose], hsingle, ?_⟩
    intro a ha
    simp [Rng.choose] at ha
  · obtain ⟨i, hi, g2, hc⟩ := Rng.choose_spec g vs hvs
    refine ⟨by rw [hc]; simp [hvs], hsingle, ?_⟩
    intro a ha
    rw [hc] at ha
    simp only [Option.some.injEq] at ha
    rw [← ha]
    exact List.get_mem vs i hi

theorem claim_C9_choose_witness : 5 ∈ [5, 6] :=
  (claim_C9_choose gcon [5, 6]).2.2 5 (by rfl)

namespace Rng

/-- `gen_ascii_str` never fails and yields exactly `n` characters drawn
from the alphabet. -/
theorem gen_ascii_spec : ∀ (n : Nat) (g : RNG), ∃ (cs : List Char) (g2 : RNG),
    gen_ascii_str g n = some (cs, g2) ∧ cs.length = n ∧
    ∀ c ∈ cs, c ∈ GEN_ASCII_STR_CHARSET := by
  intro n
  induction n with
  | zero => exact fun g => ⟨[], g, rfl, rfl, by simp⟩
  | succ n ih =>
    intro g
    obtain ⟨i, hi, g2, hc⟩ := choose_spec g GEN_ASCII_STR_CHARSET (by decide)
    obtain ⟨cs, g3, hg, hlen, hmem⟩ := ih g2
    refine ⟨GEN_ASCII_STR_CHARSET.get ⟨i, hi⟩ :: cs, g3, ?_, by simp [hlen], ?_⟩
    · simp only [gen_ascii_str]
      rw [hc]
      simp [hg]
    · intro c hcm
      rw [List.mem_cons] at hcm
      rcases hcm with rfl | hcm
      · exact List.get_mem _ _ _
      · exact hmem c hcm

end Rng

/-- C10: `gen_ascii_str(n)` succeeds for every `n` (the alphabet of its
`choose` calls has 62 symbols, so no pick fails), returning exactly `n`
characters, each from the alphabet; `n = 0` yields the empty string. -/
theorem claim_C10_gen_ascii_str (g : RNG) (n : Nat) :
    GEN_ASCII_STR_CHARSET.length = 62 ∧
    Rng.gen_ascii_str g 0 = some ([], g) ∧
    ∃ (cs : List Char) (g2 : RNG),
      Rng.gen_ascii_str g n = some (cs, g2) ∧ cs.length = n ∧
      ∀ c ∈ cs, c ∈ GEN_ASCII_STR_CHARSET :=
  ⟨by decide, rfl, Rng.gen_ascii_spec n g⟩

theorem claim_C10_gen_ascii_str_witness :
    GEN_ASCII_STR_CHARSET.length = 62 ∧
    Rng.gen_ascii_str gcon 0 = some ([], gcon) :=
  ⟨(claim_C10_gen_ascii_str gcon 3).1, (claim_C10_gen_ascii_str gcon 0).2.1⟩

/-! ### Helper lemmas: swapping two list positions is a permutation -/

theorem get_cons_set_perm {α : Type u} :
    ∀ (t : List α) (j : Nat) (hj : j < t.length) (a : α),
      (t.get ⟨j, hj⟩ :: t.set j a).Perm (a :: t)
  | b :: t2, 0, _, a => List.Perm.swap a b t2
  | b :: t2, j + 1, hj, a => by
    have ih := get_cons_set_perm t2 j (by simpa using hj) a
    simp only [List.get_cons_succ, List.set_cons_succ]
    exact (List.Perm.swap b _ _).trans ((ih.cons b).trans (List.Perm.swap a b t2))

theorem set_set_swap_perm {α : Type u} :
    ∀ (l : List α) (i j : Nat) (hi : i < l.length) (hj : j < l.length),
      (((l.set i (l.get ⟨j, hj⟩)).set j (l.get ⟨i, hi⟩))).Perm l
  | a :: t, 0, 0, _, _ => by simp
  | a :: t, 0, j + 1, hi, hj => by
    simpa using get_cons_set_perm t j (by simpa using hj) a
  | a :: t, i + 1, 0, hi, hj => by
    simpa using get_cons_set_perm t i (by simpa using hi) a
  | a :: t, i + 1, j + 1, hi, hj => by
    simpa using (set_set_swap_perm t i j (by simpa using hi)
      (by simpa using hj)).cons a

theorem listSwap_perm {α : Type u} (l : List α) (i j : Nat) :
    (listSwap l i j).Perm l := by
  unfold listSwap
  cases hli : l[i]? with
  | none => exact List.Perm.refl l
  | some a =>
    cases hlj : l[j]? with
    | none => exact List.Perm.refl l
    | some b =>
      obtain ⟨hi, ha⟩ := List.getElem?_eq_some_iff.mp hli
      obtain ⟨hj, hb⟩ := List.getElem?_eq_some_iff.mp hlj
      subst ha hb
      exact set_set_swap_perm l i j hi hj

namespace Rng

theorem shuffleGo_perm {α : Type u} :
    ∀ (fuel : Nat) (vs : List α) (g : RNG), (shuffleGo fuel vs g).1.Perm vs
  | 0, vs, _ => List.Perm.refl vs
  | 1, vs, _ => List.Perm.refl vs
  | i + 2, vs, g => by
    simp only [shuffleGo]
    split
    · rename_i j g2 heq
      exact (shuffleGo_perm (i + 1) (listSwap vs (i + 1) j) g2).trans
        (listSwap_perm vs (i + 1) j)
    · exact List.Perm.refl vs

end Rng

/-- C7: `shuffle` permutes the input (the output is the same multiset of
elements), and for inputs of length ≤ 1 it is a no-op that draws nothing
(the generator state is returned unchanged). -/
theorem claim_C7_shuffle {α : Type u} (g : RNG) (vs : List α) :
    (Rng.shuffle g vs).1.Perm vs ∧
    (vs.length ≤ 1 → Rng.shuffle g vs = (vs, g)) := by
  constructor
  · exact Rng.shuffleGo_perm vs.length vs g
  · intro hlen
    unfold Rng.shuffle
    have : vs.length = 0 ∨ vs.length = 1 := by omega
    rcases this with h | h <;> rw [h] <;> rfl

theorem claim_C7_shuffle_witness : Rng.shuffle gcon [42] = ([42], gcon) :=
  (claim_C7_shuffle gcon [42]).2 (by simp)

namespace Rng

theorem sampleGo_spec {α : Type u} (n : Nat) :
    ∀ (rest : List α) (i : Nat) (res : List α) (g : RNG),
      res.length = min n i →
      ∃ (out : List α) (g2 : RNG),
        sampleGo n rest i res g = some (out, g2) ∧
        out.length = min n (i + rest.length) ∧
        ∀ a ∈ out, a ∈ res ∨ a ∈ rest := by
  intro rest
  induction rest with
  | nil =>
    intro i res g hres
    exact ⟨res, g, rfl, by simpa using hres, fun a ha => Or.inl ha⟩
  | cons e rest ih =>
    intro i res g hres
    simp only [sampleGo]
    by_cases hin : i < n
    · rw [if_pos hin]
      obtain ⟨out, g2, heq, hlen, hmem⟩ := ih (i + 1) (res ++ [e]) g
        (by simp [hres]; omega)
      refine ⟨out, g2, heq, by rw [hlen]; simp only [List.length_cons]; omega, ?_⟩
      intro a ha
      rcases hmem a ha with hr | hr
      · rcases List.mem_append.mp hr with h | h
        · exact Or.inl h
        · simp at h
          exact Or.inr (by simp [h])
      · exact Or.inr (List.mem_cons_of_mem e hr)
    · rw [if_neg hin, gen_range_eq (show 0 < i + 1 by omega) g]
      obtain ⟨out, g2, heq, hlen, hmem⟩ := ih (i + 1)
        (if (indSample 0 (i + 1) g).1 < res.length
          then res.set (indSample 0 (i + 1) g).1 e else res)
        (indSample 0 (i + 1) g).2
        (by split <;> simp [hres] <;> omega)
      refine ⟨out, g2, heq, by rw [hlen]; simp only [List.length_cons]; omega, ?_⟩
      intro a ha
      rcases hmem a ha with hr | hr
      · split at hr
        · rcases List.mem_or_eq_of_mem_set hr with h | h
          · exact Or.inl h
          · exact Or.inr (by simp [h])
        · exact Or.inl hr
      · exact Or.inr (List.mem_cons_of_mem e hr)

theorem sampleGo_all {α : Type u} (n : Nat) :
    ∀ (rest : List α) (i : Nat) (res : List α) (g : RNG),
      i + rest.length ≤ n →
      sampleGo n rest i res g = some (res ++ rest, g) := by
  intro rest
  induction rest with
  | nil => intro i res g _; simp [sampleGo]
  | cons e rest ih =>
    intro i res g hle
    simp only [sampleGo]
    rw [if_pos (by simp at hle; omega)]
    rw [ih (i + 1) (res ++ [e]) g (by simp at hle ⊢; omega)]
    simp

end Rng

/-- C8: `sample(iter, n)` over a length-`L` sequence always succeeds with
`min n L` elements; when `L ≤ n` the result is the whole sequence in
order; every result element occurs in the input. -/
theorem claim_C8_sample {α : Type u} (g : RNG) (l : List α) (n : Nat) :
    ∃ (out : List α) (g2 : RNG),
      Rng.sample g l n = some (out, g2) ∧
      out.length = min n l.length ∧
      (l.length ≤ n → out = l) ∧
      ∀ a ∈ out, a ∈ l := by
  obtain ⟨out, g2, heq, hlen, hmem⟩ := Rng.sampleGo_spec n l 0 [] g (by simp)
  refine ⟨out, g2, heq, by simpa using hlen, ?_, ?_⟩
  · intro hle
    have h2 := Rng.sampleGo_all n l 0 [] g (by omega)
    rw [heq] at h2
    simpa using congrArg Prod.fst (Option.some.inj h2)
  · intro a ha
    rcases hmem a ha with h | h
    · simp at h
    · exact h

theorem claim_C8_sample_witness :
    ∃ (out : List Nat) (g2 : RNG),
      Rng.sample gcon [1, 2, 3] 5 = some (out, g2) ∧ out = [1, 2, 3] := by
  obtain ⟨out, g2, heq, _, hfull, _⟩ := claim_C8_sample gcon [1, 2, 3] 5
  exact ⟨out, g2, heq, hfull (by simp)⟩

/-! ### Helper lemmas: the default `fill_bytes` loop -/

/-- At `count = 0` the pending `num` is never read: a fresh word is drawn
first. -/
theorem fillBytesGo_num_irrel {σ : Type u} (f : σ → Nat × σ) :
    ∀ (dest : List Nat) (num num2 : Nat) (s : σ),
      fillBytesGo f dest 0 num s = fillBytesGo f dest 0 num2 s
  | [], _, _, _ => rfl
  | _ :: _, _, _, _ => rfl

/-- Unrolled first iteration at `count = 0`: draw the word, emit its low
byte, continue with `count = 7` on the word shifted right 8. -/
theorem fillBytesGo_cons_zero {σ : Type u} (f : σ → Nat × σ) (b : Nat)
    (rest : List Nat) (num : Nat) (s : σ) :
    fillBytesGo f (b :: rest) 0 num s =
      (((f s).1 &&& 255) ::
          (fillBytesGo f rest 7 ((f s).1 >>> 8) (f s).2).1,
        (fillBytesGo f rest 7 ((f s).1 >>> 8) (f s).2).2) := rfl

/-- Draining phase: with `count = c` pending, the next `min c |dest|`
bytes come from successive 8-bit chunks of `num`, after which the loop
returns to `count = 0` on the rest of the destination. -/
theorem fillBytesGo_drain {σ : Type u} (f : σ → Nat × σ) :
    ∀ (c : Nat) (dest : List Nat) (num : Nat) (s : σ),
      fillBytesGo f dest c num s =
        ((List.range (min c dest.length)).map
            (fun j => (num >>> (8 * j)) &&& 255) ++
          (fillBytesGo f (dest.drop c) 0 0 s).1,
        (fillBytesGo f (dest.drop c) 0 0 s).2) := by
  intro c
  induction c with
  | zero =>
    intro dest num s
    simp only [Nat.zero_min, List.range_zero, List.map_nil, List.nil_append,
      List.drop_zero]
    rw [fillBytesGo_num_irrel f dest num 0]
  | succ c ih =>
    intro dest num s
    cases dest with
    | nil => simp [fillBytesGo]
    | cons b rest =>
      show (if c + 1 = 0 then _ else _) = _
      rw [if_neg (Nat.succ_ne_zero c)]
      simp only [Nat.add_sub_cancel]
      rw [ih rest (num >>> 8) s]
      simp only [List.drop_succ_cons]
      congr 1
      simp only [List.length_cons]
      rw [Nat.succ_min_succ, List.range_succ_eq_map]
      simp only [List.map_cons, List.map_map, Nat.mul_zero, Nat.shiftRight_zero,
        List.cons_append]
      have hfun : (fun j => num >>> 8 >>> (8 * j) &&& 255) =
          ((fun j => num >>> (8 * j) &&& 255) ∘ Nat.succ) := by
        funext j
        simp only [Function.comp_apply]
        rw [← Nat.shiftRight_add]
        have harith : 8 + 8 * j = 8 * Nat.succ j := by omega
        rw [harith]
      rw [hfun]

/-- The loop writes exactly one byte per destination slot. -/
theorem fillBytesGo_length {σ : Type u} (f : σ → Nat × σ) :
    ∀ (dest : List Nat) (c num : Nat) (s : σ),
      (fillBytesGo f dest c num s).1.length = dest.length := by
  intro dest
  induction dest with
  | nil => intro c num s; rfl
  | cons b rest ih =>
    intro c num s
    simp only [fillBytesGo]
    split
    · simp [ih]
    · simp [ih]

/-- The loop consumes exactly `⌈|dest| / 8⌉` words of the source. -/
theorem fillBytesGo_final_state {σ : Type u} (f : σ → Nat × σ) :
    ∀ (n : Nat) (dest : List Nat) (s : σ), dest.length = n →
      (fillBytesGo f dest 0 0 s).2 = stateAfter f s ((dest.length + 7) / 8) := by
  intro n
  induction n using Nat.strong_induction_on with
  | _ n ih =>
    intro dest s hlen
    cases dest with
    | nil => rfl
    | cons b rest =>
      simp only [List.length_cons] at hlen
      rw [fillBytesGo_cons_zero]
      dsimp only
      rw [fillBytesGo_drain]
      dsimp only
      have hlt : (rest.drop 7).length < n := by
        simp only [List.length_drop]; omega
      rw [ih (rest.drop 7).length hlt (rest.drop 7) (f s).2 rfl]
      simp only [List.length_drop, List.length_cons]
      have h8 : (rest.length + 1 + 7) / 8 = (rest.length - 7 + 7) / 8 + 1 := by
        omega
      rw [h8]
      rfl

/-- Byte `p` of the output is byte `p % 8` (low-byte-first) of word
`p / 8` of the source's word stream. -/
theorem fillBytesGo_bytes {σ : Type u} (f : σ → Nat × σ) :
    ∀ (n : Nat) (dest : List Nat) (s : σ), dest.length = n →
      ∀ p, p < dest.length →
        (fillBytesGo f dest 0 0 s).1[p]? =
          some ((wordAt f s (p / 8) >>> (8 * (p % 8))) &&& 255) := by
  intro n
  induction n using Nat.strong_induction_on with
  | _ n ih =>
    intro dest s hlen p hp
    cases dest with
    | nil => simp at hp
    | cons b rest =>
      simp only [List.length_cons] at hlen hp
      rw [fillBytesGo_cons_zero]
      dsimp only
      rw [fillBytesGo_drain]
      dsimp only
      cases p with
      | zero =>
        simp only [List.getElem?_cons_zero, Nat.zero_div, Nat.zero_mod,
          Nat.mul_zero, Nat.shiftRight_zero]
        rfl
      | succ q =>
        simp only [List.getElem?_cons_succ]
        by_cases hq : q < min 7 rest.length
        · rw [List.getElem?_append_left
            (by simp only [List.length_map, List.length_range]; exact hq)]
          rw [List.getElem?_map, List.getElem?_range hq]
          simp only [Option.map_some']
          have hd : (q + 1) / 8 = 0 := by omega
          have hm : (q + 1) % 8 = q + 1 := by omega
          rw [hd, hm]
          simp only [wordAt]
          rw [← Nat.shiftRight_add]
          have harith : 8 + 8 * q = 8 * (q + 1) := by omega
          rw [harith]
        · have hq2 : q < rest.length := by omega
          have h7 : 7 ≤ q := by omega
          rw [List.getElem?_append_right
            (by simp only [List.length_map, List.length_range]; omega)]
          simp only [List.length_map, List.length_range]
          have hmin : min 7 rest.length = 7 := by omega
          rw [hmin]
          have hlt : (rest.drop 7).length < n := by
            simp only [List.length_drop]; omega
          rw [ih (rest.drop 7).length hlt (rest.drop 7) (f s).2 rfl (q - 7)
            (by simp only [List.length_drop]; omega)]
          have hd : (q + 1) / 8 = (q - 7) / 8 + 1 := by omega
          have hm : (q + 1) % 8 = (q - 7) % 8 := by omega
          rw [hd, hm]
          rfl

/-- C1: for every word source (any generator's `next_u64`) and every
destination length — 0, non-multiples of 8 included — the default
`fill_bytes` overwrites every byte (one output byte per slot, independent
of the old contents): byte `p` is bits `8·(p % 8) .. 8·(p % 8) + 7`
(low-byte-first) of the `p / 8`-th 64-bit word drawn, and exactly
`⌈L / 8⌉` words are drawn, a fresh one only when the previous 8 bytes are
exhausted. -/
theorem claim_C1_fill_bytes {σ : Type u} (f : σ → Nat × σ) (dest : List Nat)
    (s : σ) :
    (Rng.fill_bytes f dest s).1.length = dest.length ∧
    (∀ p, p < dest.length →
      (Rng.fill_bytes f dest s).1[p]? =
        some ((wordAt f s (p / 8) >>> (8 * (p % 8))) % 256)) ∧
    (Rng.fill_bytes f dest s).2 = stateAfter f s ((dest.length + 7) / 8) := by
  refine ⟨fillBytesGo_length f dest 0 0 s, ?_,
    fillBytesGo_final_state f dest.length dest s rfl⟩
  intro p hp
  have h := fillBytesGo_bytes f dest.length dest s rfl p hp
  have h255 : ∀ x : Nat, x &&& 255 = x % 256 := by
    intro x
    have := Nat.and_pow_two_sub_one_eq_mod x 8
    norm_num at this
    exact this
  rw [h255] at h
  exact h

theorem claim_C1_fill_bytes_witness :
    (Rng.fill_bytes Rng.next_u64 (List.replicate 10 0) gcon).1[8]? =
      some ((wordAt Rng.next_u64 gcon (8 / 8) >>> (8 * (8 % 8))) % 256) :=
  (claim_C1_fill_bytes Rng.next_u64 (List.replicate 10 0) gcon).2.1 8
    (by simp)
